import Mathlib

/-!
# Verification of the Assignment Pull Request Creator

A shallow embedding of `create_assignment_prs.py`, the GitHub Actions tool
that scans a repository for assignment directories, creates a branch and a
README per assignment, and opens a pull request for each one, skipping
assignments that already have a branch or have ever had a pull request.

The embedding models the pure computations of the script directly and models
its effectful parts (git subprocesses, the GitHub API, the filesystem walk)
as explicit inputs and as traces of the mutating calls the script issues.
Text is modelled at the level of the ASCII fragment: the Python whitespace
class `\s`, `str.strip`, and `str.lower` are embedded with their ASCII
behaviour, which is the behaviour exercised by the tool's path inputs.
-/

namespace AssignmentPR

/-! ## Python string primitives -/

/-- The ASCII whitespace class of Python: the characters matched by `\s`
and stripped by `str.strip()` on ASCII text. -/
def pyIsSpace (c : Char) : Bool :=
  c = ' ' || c = '\t' || c = '\n' || c = '\r' || c = '\x0b' || c = '\x0c'

/-- `re.sub` of a maximal run of characters satisfying `p` by the single
replacement character `r`, as performed by `re.sub(r"\s+", "-", s)` and
`re.sub(r"-+", "-", s)`.  The Boolean flag records whether the previous
input character belonged to a run (in which case further run characters
are dropped rather than replaced again). -/
def collapseRuns (p : Char → Bool) (r : Char) : Bool → List Char → List Char
  | _, [] => []
  | inRun, c :: cs =>
    if p c then
      if inRun then collapseRuns p r true cs
      else r :: collapseRuns p r true cs
    else c :: collapseRuns p r false cs

/-- Remove trailing characters satisfying `p`, as `str.rstrip` does. -/
def dropTrailing (p : Char → Bool) (l : List Char) : List Char :=
  (l.reverse.dropWhile p).reverse

/-- Remove leading and trailing characters satisfying `p`, as `str.strip`
(no argument: `p = pyIsSpace`) and `str.strip("-")` do. -/
def pyStrip (p : Char → Bool) (l : List Char) : List Char :=
  dropTrailing p (l.dropWhile p)

/-- `str.strip()` on a string. -/
def pyStripStr (s : String) : String :=
  ⟨pyStrip pyIsSpace s.data⟩

/-- `str.rstrip()` on a string. -/
def pyRstrip (s : String) : String :=
  ⟨dropTrailing pyIsSpace s.data⟩

/-- `str.lower()` on a string (ASCII case mapping). -/
def pyLower (s : String) : String :=
  ⟨s.data.map Char.toLower⟩

/-! ## `sanitize_branch_name` -/

/-- The character-level body of `sanitize_branch_name`, following the
source step by step. -/
def sanitizeChars (l : List Char) : List Char :=
  -- branch_name = assignment_path.strip()
  let s1 := pyStrip pyIsSpace l
  -- branch_name = re.sub(r"\s+", "-", branch_name)
  let s2 := collapseRuns pyIsSpace '-' false s1
  -- branch_name = branch_name.replace("/", "-")
  let s3 := s2.map (fun c => if c = '/' then '-' else c)
  -- branch_name = re.sub(r"-+", "-", branch_name)
  let s4 := collapseRuns (fun c => c = '-') '-' false s3
  -- branch_name = branch_name.lower()
  let s5 := s4.map Char.toLower
  -- branch_name = branch_name.strip("-")
  pyStrip (fun c => c = '-') s5

/-- `AssignmentPRCreator.sanitize_branch_name`: sanitize an assignment path
into a branch name. -/
def sanitize_branch_name (assignment_path : String) : String :=
  ⟨sanitizeChars assignment_path.data⟩

/-! ## `create_readme`: augmentation of an existing README -/

/-- The `augmentation_comment` literal appended by `create_readme` when a
README already exists. -/
def augmentation_comment : String :=
  "\n\n---\n\n*This README was augmented by the Assignment Pull Request Creator action.*\n"

/-- The content written back by `create_readme` when `README.md` already
exists: `existing_content.rstrip() + augmentation_comment`. -/
def augmented_content (existing_content : String) : String :=
  pyRstrip existing_content ++ augmentation_comment

/-! ## `create_branch`: the git commands issued -/

/-- The two shell commands run by `create_branch`, in order: switch to the
default branch, then create and switch to the new branch.  The branch name
is substituted into the command string unquoted. -/
def create_branch_commands (default_branch branch_name : String) : List String :=
  ["git checkout " ++ default_branch, "git checkout -b " ++ branch_name]

/-! ## State reader -/

/-- Key membership in the Python dict of pull requests
(`branch_name in existing_prs`). -/
def hasKey (d : List (String × String)) (k : String) : Bool :=
  d.any (fun kv => kv.1 == k)

/-- One `branches.add(name)` step on the set of branch names, modelled on
lists up to membership. -/
def setAdd (branches : List String) (name : String) : List String :=
  if branches.contains name then branches else branches ++ [name]

/-- `get_existing_branches`: in dry-run mode, return the empty set without
running git; otherwise parse the output of `git branch` line by line,
stripping the `* ` marker of the current branch. -/
def get_existing_branches (dry_run : Bool) (git_branch_output : String) : List String :=
  if dry_run then []
  else
    (git_branch_output.splitOn "\n").foldl
      (fun branches line =>
        if pyStripStr line ≠ "" then
          let branch_name := pyStripStr ((pyStripStr line).replace "* " "")
          if branch_name ≠ "" then setAdd branches branch_name else branches
        else branches)
      []

/-- One insertion step of the Python dict comprehension
`{pr.head.ref: pr.state for pr in pulls}`: a later pull request with the
same head branch overwrites the earlier state. -/
def dictUpdate (d : List (String × String)) (k v : String) : List (String × String) :=
  if hasKey d k then d.map (fun kv => if kv.1 == k then (k, v) else kv)
  else d ++ [(k, v)]

/-- `get_existing_pull_requests`: in dry-run mode, return the empty dict
without calling the GitHub API; otherwise build the head-branch → state
dict from the full pull-request list (`state="all"`). -/
def get_existing_pull_requests (dry_run : Bool) (pulls : List (String × String)) :
    List (String × String) :=
  if dry_run then []
  else pulls.foldl (fun d pr => dictUpdate d pr.1 pr.2) []

/-! ## Orchestrator: `process_assignments`

The mutating calls issued by the orchestrator are modelled as a trace of
events.  `run_git_command` and the API wrappers either succeed (returning
`True`) or terminate the whole process, so on every completed run each
mutator call that was made appears in the trace exactly once. -/

/-- One mutating call made by the orchestrator. -/
inductive Event where
  | createBranch (branch_name : String)
  | createReadme (assignment_path branch_name : String)
  | createPullRequest (assignment_path branch_name : String)
deriving DecidableEq

/-- The phase-2 body of the `for assignment_path in assignments` loop:
the decision table on (branch exists, PR has ever existed), returning the
mutator calls made during the iteration together with the
`branches_to_process` entries it appends. -/
def phase2Step (existing_branches : List String) (existing_prs : List (String × String))
    (assignment_path : String) : List Event × List (String × String) :=
  let branch_name := sanitize_branch_name assignment_path
  let branch_exists := existing_branches.contains branch_name
  let pr_has_existed := hasKey existing_prs branch_name
  if !branch_exists && !pr_has_existed then
    ([Event.createBranch branch_name, Event.createReadme assignment_path branch_name],
      [(assignment_path, branch_name)])
  else if !branch_exists && pr_has_existed then
    ([], [])
  else if branch_exists && !pr_has_existed then
    ([], [(assignment_path, branch_name)])
  else
    ([], [])

/-- Phase 2 of `process_assignments`: iterate `phase2Step` over all
discovered assignments, accumulating events and `branches_to_process`. -/
def phase2 (existing_branches : List String) (existing_prs : List (String × String)) :
    List String → List Event × List (String × String)
  | [] => ([], [])
  | a :: rest =>
    let step := phase2Step existing_branches existing_prs a
    let restRes := phase2 existing_branches existing_prs rest
    (step.1 ++ restRes.1, step.2 ++ restRes.2)

/-- The phase-4 body: for one `branches_to_process` entry, re-check the PR
history and call `create_pull_request` when no PR has ever existed. -/
def phase4Step (existing_prs : List (String × String)) (entry : String × String) :
    List Event :=
  if hasKey existing_prs entry.2 then []
  else [Event.createPullRequest entry.1 entry.2]

/-- Phase 4 of `process_assignments`: pull-request creation over all
`branches_to_process` entries. -/
def phase4 (existing_prs : List (String × String)) :
    List (String × String) → List Event
  | [] => []
  | e :: rest => phase4Step existing_prs e ++ phase4 existing_prs rest

/-- `process_assignments`, as the trace of mutator calls of a completed
run: local phase-2 processing over the snapshotted branch set and PR
history, then phase-4 pull-request creation for the collected entries. -/
def process_assignments (assignments : List String) (existing_branches : List String)
    (existing_prs : List (String × String)) : List Event :=
  let res := phase2 existing_branches existing_prs assignments
  res.1 ++ phase4 existing_prs res.2

/-! ## Scanner: `find_assignments` -/

/-- A directory tree: a name and the subdirectories (`os.walk` ignores
files for this tool). -/
inductive DirTree where
  | node (name : String) (children : List DirTree)

/-- Basename of a directory. -/
def DirTree.name : DirTree → String
  | .node n _ => n

/-- Immediate subdirectories of a directory. -/
def DirTree.children : DirTree → List DirTree
  | .node _ cs => cs

mutual

/-- All directories visited by `os.walk` started at `t`, each paired with
its path relative to `t` (the empty path is `t` itself). -/
def subdirs : DirTree → List (List String × DirTree)
  | .node n cs => ([], .node n cs) :: subdirsList cs

/-- The `subdirs` of each tree in a list, with the child's name prepended
to every relative path. -/
def subdirsList : List DirTree → List (List String × DirTree)
  | [] => []
  | c :: rest =>
    (subdirs c).map (fun pd => (c.name :: pd.1, pd.2)) ++ subdirsList rest

end

/-- The inner `os.walk(assignments_root)` loop of `find_assignments`:
emit every directory beneath `assignments_root` whose basename reMatch the
assignment pattern, skipping the root itself
(`assignment_root_path != assignments_root`), as a path relative to the
workspace root (`root_rel` is the root's own workspace-relative path). -/
def scanRoot (assignment_pattern : String → Bool) (root_rel : List String)
    (assignments_root : DirTree) : List (List String) :=
  (subdirs assignments_root).filterMap
    (fun pd =>
      if assignment_pattern pd.2.name && !(pd.1 == ([] : List String)) then
        some (root_rel ++ pd.1)
      else none)

/-- `find_assignments`: walk the workspace; every child directory whose
basename reMatch the root pattern is an assignments root, and each root is
scanned independently for assignment directories.  The regex patterns are
modelled as the Boolean match tests the source applies to basenames. -/
def find_assignments (root_pattern assignment_pattern : String → Bool)
    (workspace : DirTree) : List (List String) :=
  (subdirs workspace).flatMap
    (fun pd =>
      pd.2.children.flatMap
        (fun c =>
          if root_pattern c.name then
            scanRoot assignment_pattern (pd.1 ++ [c.name]) c
          else []))

/-! ## Configuration and `__init__` -/

/-- The configuration error (`ValueError`) raised by
`AssignmentPRCreator.__init__`. -/
inductive InitError where
  | missingToken
  | missingRepository
deriving DecidableEq

/-- The configuration attributes read from the environment by
`AssignmentPRCreator.__init__`. -/
structure Config where
  default_branch : String
  github_token : String
  repository_name : String
  assignments_root_regex : String
  assignment_regex : String
  dry_run : Bool
deriving DecidableEq

/-- `AssignmentPRCreator.__init__` on an environment (an association list
of environment variables): read the configuration, then raise `ValueError`
if the token or the repository name is missing or empty (Python's
`if not self.github_token` treats both `None` and `""` as falsy). -/
def creator_init (env : List (String × String)) : Except InitError Config :=
  let default_branch := (env.lookup "DEFAULT_BRANCH").getD "main"
  let github_token := env.lookup "GITHUB_TOKEN"
  let repository_name := env.lookup "GITHUB_REPOSITORY"
  let assignments_root_regex := (env.lookup "ASSIGNMENTS_ROOT_REGEX").getD "^assignments$"
  let assignment_regex := (env.lookup "ASSIGNMENT_REGEX").getD "^assignment-\\d+$"
  let dry_run := (pyLower ((env.lookup "DRY_RUN").getD "false")) ∈ ["true", "1", "yes"]
  if github_token.getD "" = "" then .error .missingToken
  else if repository_name.getD "" = "" then .error .missingRepository
  else .ok
    { default_branch := default_branch
      github_token := github_token.getD ""
      repository_name := repository_name.getD ""
      assignments_root_regex := assignments_root_regex
      assignment_regex := assignment_regex
      dry_run := dry_run }

/-- `run` on a constructed creator: scan the workspace, read the remote
state (git output and pull-request list are the inputs of the two state
readers; `reMatch re` is the regex-match oracle applied to basenames), and
process the assignments.  Returns the exit code paired with the trace. -/
def creator_run (reMatch : String → String → Bool) (cfg : Config)
    (workspace : DirTree) (git_branch_output : String)
    (pulls : List (String × String)) : Nat × List Event :=
  let assignments := (find_assignments (reMatch cfg.assignments_root_regex)
    (reMatch cfg.assignment_regex) workspace).map
      (fun p => String.intercalate "/" p)
  (0, process_assignments assignments
    (get_existing_branches cfg.dry_run git_branch_output)
    (get_existing_pull_requests cfg.dry_run pulls))

/-- The `__main__` block: construct the creator, then run it.  A
`ValueError` raised by the constructor escapes before any scanning or
mutation work and terminates the process with exit code 1. -/
def main (env : List (String × String)) (reMatch : String → String → Bool)
    (workspace : DirTree) (git_branch_output : String)
    (pulls : List (String × String)) : Nat × List Event :=
  match creator_init env with
  | .error _ => (1, [])
  | .ok cfg => creator_run reMatch cfg workspace git_branch_output pulls

/-! ## Character-level lemmas -/

theorem char_toNat_ofNat {n : Nat} (h : n.isValidChar) : (Char.ofNat n).toNat = n := by
  rw [Char.ofNat, dif_pos h]
  simp [Char.ofNatAux, Char.toNat, UInt32.toNat]

theorem toLower_eq_self {c : Char} (h : ¬(c.toNat ≥ 65 ∧ c.toNat ≤ 90)) :
    c.toLower = c := by
  unfold Char.toLower
  simp only [ge_iff_le]
  rw [if_neg (by simpa [ge_iff_le] using h)]

theorem toLower_toNat_of_upper {c : Char} (h : c.toNat ≥ 65 ∧ c.toNat ≤ 90) :
    c.toLower.toNat = c.toNat + 32 := by
  unfold Char.toLower
  simp only [ge_iff_le]
  rw [if_pos (by simpa [ge_iff_le] using h)]
  exact char_toNat_ofNat (Or.inl (by omega))

theorem toLower_cases (c : Char) :
    c.toLower = c ∨ (97 ≤ c.toLower.toNat ∧ c.toLower.toNat ≤ 122) := by
  by_cases h : c.toNat ≥ 65 ∧ c.toNat ≤ 90
  · right
    rw [toLower_toNat_of_upper h]
    omega
  · left
    exact toLower_eq_self h

theorem isUpper_iff {c : Char} : c.isUpper = true ↔ (65 ≤ c.toNat ∧ c.toNat ≤ 90) := by
  simp [Char.isUpper, UInt32.le_def, BitVec.le_def, Char.toNat, UInt32.toNat]

theorem pyIsSpace_toNat {c : Char} (h : pyIsSpace c = true) : c.toNat ≤ 32 := by
  simp only [pyIsSpace, Bool.or_eq_true, decide_eq_true_eq] at h
  rcases h with ((((h | h) | h) | h) | h) | h <;> subst h <;> decide

theorem pyIsSpace_false_of_gt {c : Char} (h : 32 < c.toNat) : pyIsSpace c = false := by
  cases hx : pyIsSpace c
  · rfl
  · exact absurd (pyIsSpace_toNat hx) (by omega)

theorem char_toNat_inj {c d : Char} (h : c.toNat = d.toNat) : c = d := by
  have := congrArg Char.ofNat h
  rwa [Char.ofNat_toNat, Char.ofNat_toNat] at this

theorem pyIsSpace_toLower (c : Char) : pyIsSpace c.toLower = pyIsSpace c := by
  by_cases h : c.toNat ≥ 65 ∧ c.toNat ≤ 90
  · rw [pyIsSpace_false_of_gt (c := c.toLower) (by rw [toLower_toNat_of_upper h]; omega),
      pyIsSpace_false_of_gt (by omega)]
  · rw [toLower_eq_self h]

theorem toLower_ne_slash {c : Char} (h : c ≠ '/') : c.toLower ≠ '/' := by
  rcases toLower_cases c with hc | hc
  · rwa [hc]
  · intro he
    rw [he] at hc
    exact absurd hc (by decide)

theorem toLower_eq_hyphen {c : Char} (h : c.toLower = '-') : c = '-' := by
  rcases toLower_cases c with hc | hc
  · rwa [hc] at h
  · rw [h] at hc
    exact absurd hc (by decide)

theorem isUpper_toLower (c : Char) : c.toLower.isUpper = false := by
  by_cases h : c.toNat ≥ 65 ∧ c.toNat ≤ 90
  · cases hx : c.toLower.isUpper
    · rfl
    · have := isUpper_iff.mp hx
      rw [toLower_toNat_of_upper h] at this
      omega
  · rw [toLower_eq_self h]
    cases hx : c.isUpper
    · rfl
    · exact absurd (isUpper_iff.mp hx) (by simpa [ge_iff_le] using h)

/-! ## Lemmas on the string primitives -/

theorem mem_collapseRuns {p : Char → Bool} {r : Char} :
    ∀ {l : List Char} {b : Bool} {c : Char}, c ∈ collapseRuns p r b l →
      c = r ∨ (c ∈ l ∧ p c = false)
  | [], b, c, h => by simp [collapseRuns] at h
  | a :: l, b, c, h => by
    rw [collapseRuns] at h
    by_cases hpa : p a
    · rw [if_pos hpa] at h
      cases b with
      | true =>
        rcases mem_collapseRuns h with h' | ⟨h1, h2⟩
        · exact Or.inl h'
        · exact Or.inr ⟨List.mem_cons_of_mem _ h1, h2⟩
      | false =>
        rcases List.mem_cons.mp h with h' | h'
        · exact Or.inl h'
        · rcases mem_collapseRuns h' with h'' | ⟨h1, h2⟩
          · exact Or.inl h''
          · exact Or.inr ⟨List.mem_cons_of_mem _ h1, h2⟩
    · rw [if_neg hpa] at h
      rcases List.mem_cons.mp h with h' | h'
      · exact Or.inr ⟨h' ▸ List.mem_cons_self _ _, h' ▸ Bool.of_not_eq_true hpa⟩
      · rcases mem_collapseRuns h' with h'' | ⟨h1, h2⟩
        · exact Or.inl h''
        · exact Or.inr ⟨List.mem_cons_of_mem _ h1, h2⟩

theorem collapseRuns_eq_self {p : Char → Bool} {r : Char} :
    ∀ {l : List Char} (b : Bool), (∀ c ∈ l, p c = false) → collapseRuns p r b l = l
  | [], _, _ => rfl
  | a :: l, b, h => by
    rw [collapseRuns, if_neg (by simp [h a (List.mem_cons_self _ _)]),
      collapseRuns_eq_self false (fun c hc => h c (List.mem_cons_of_mem _ hc))]

theorem head?_collapseRuns_true {p : Char → Bool} {r : Char} :
    ∀ {l : List Char} {c : Char}, (collapseRuns p r true l).head? = some c →
      p c = false
  | [], c, h => by simp [collapseRuns] at h
  | a :: l, c, h => by
    rw [collapseRuns] at h
    by_cases hpa : p a
    · rw [if_pos hpa] at h
      exact head?_collapseRuns_true h
    · rw [if_neg hpa] at h
      simp only [List.head?_cons, Option.some.injEq] at h
      exact h ▸ Bool.of_not_eq_true hpa

theorem chain'_collapseRuns {p : Char → Bool} {r : Char} :
    ∀ (l : List Char) (b : Bool),
      (collapseRuns p r b l).Chain' (fun a c => ¬(p a = true ∧ p c = true))
  | [], _ => by simp [collapseRuns]
  | a :: l, b => by
    rw [collapseRuns]
    by_cases hpa : p a
    · rw [if_pos hpa]
      cases b with
      | true => exact chain'_collapseRuns l true
      | false =>
        rw [if_neg Bool.false_ne_true, List.chain'_cons']
        refine ⟨fun y hy => ?_, chain'_collapseRuns l true⟩
        rw [head?_collapseRuns_true hy]
        simp
    · rw [if_neg hpa]
      rw [List.chain'_cons']
      refine ⟨fun y hy => ?_, chain'_collapseRuns l false⟩
      simp [Bool.of_not_eq_true hpa]

theorem collapseRuns_fix {p : Char → Bool} {r : Char} :
    ∀ {l : List Char} (b : Bool),
      l.Chain' (fun a c => ¬(p a = true ∧ p c = true)) →
      (∀ c ∈ l, p c = true → c = r) →
      (b = true → ∀ c ∈ l.head?, p c = false) →
      collapseRuns p r b l = l
  | [], _, _, _, _ => rfl
  | a :: l, b, hch, hall, hb => by
    rw [List.chain'_cons'] at hch
    by_cases hpa : p a
    · cases b with
      | true =>
        exact absurd hpa (by simpa using hb rfl a (by simp))
      | false =>
        rw [collapseRuns, if_pos hpa]
        rw [hall a (List.mem_cons_self _ _) hpa]
        rw [collapseRuns_fix true hch.2
          (fun c hc => hall c (List.mem_cons_of_mem _ hc))
          (fun _ c hc => by
            have := hch.1 c hc
            cases hpc : p c
            · rfl
            · exact absurd ⟨hpa, hpc⟩ this)]
        rw [if_neg Bool.false_ne_true]
    · rw [collapseRuns, if_neg hpa]
      rw [collapseRuns_fix false hch.2
        (fun c hc => hall c (List.mem_cons_of_mem _ hc))
        (fun habs => by exact absurd habs (by simp))]

theorem collapseRuns_all_run {p : Char → Bool} {r : Char} :
    ∀ {l : List Char}, (∀ c ∈ l, p c = true) → collapseRuns p r true l = []
  | [], _ => rfl
  | a :: l, h => by
    rw [collapseRuns, if_pos (h a (List.mem_cons_self _ _))]
    exact collapseRuns_all_run (fun c hc => h c (List.mem_cons_of_mem _ hc))

theorem collapseRuns_all_run_false {p : Char → Bool} {r : Char} {l : List Char}
    (hne : l ≠ []) (h : ∀ c ∈ l, p c = true) : collapseRuns p r false l = [r] := by
  cases l with
  | nil => exact absurd rfl hne
  | cons a l =>
    rw [collapseRuns, if_pos (h a (List.mem_cons_self _ _))]
    rw [collapseRuns_all_run (fun c hc => h c (List.mem_cons_of_mem _ hc))]
    rw [if_neg Bool.false_ne_true]

theorem mem_of_mem_dropWhile {p : Char → Bool} {l : List Char} {c : Char}
    (h : c ∈ l.dropWhile p) : c ∈ l :=
  (List.dropWhile_sublist p).subset h

theorem head?_dropWhile {p : Char → Bool} {l : List Char} {c : Char}
    (h : (l.dropWhile p).head? = some c) : p c = false := by
  have := List.head?_dropWhile_not p l
  rw [h] at this
  exact this

theorem dropWhile_eq_self_of_head {p : Char → Bool} {l : List Char}
    (h : ∀ c ∈ l.head?, p c = false) : l.dropWhile p = l := by
  cases l with
  | nil => rfl
  | cons a l =>
    rw [List.dropWhile_cons, if_neg (by simp [h a (by simp)])]

theorem mem_of_mem_dropTrailing {p : Char → Bool} {l : List Char} {c : Char}
    (h : c ∈ dropTrailing p l) : c ∈ l := by
  rw [dropTrailing, List.mem_reverse] at h
  simpa using mem_of_mem_dropWhile h

theorem getLast?_dropTrailing {p : Char → Bool} {l : List Char} {c : Char}
    (h : (dropTrailing p l).getLast? = some c) : p c = false := by
  rw [dropTrailing, List.getLast?_reverse] at h
  exact head?_dropWhile h

theorem dropTrailing_prefix_self (p : Char → Bool) (l : List Char) :
    dropTrailing p l <+: l := by
  have := List.reverse_prefix.mpr (List.dropWhile_suffix (l := l.reverse) p)
  simpa [dropTrailing] using this

theorem head?_dropTrailing {p : Char → Bool} {l : List Char} {c : Char}
    (h : (dropTrailing p l).head? = some c) : l.head? = some c := by
  obtain ⟨t, ht⟩ := dropTrailing_prefix_self p l
  cases hd : dropTrailing p l with
  | nil => rw [hd] at h; simp at h
  | cons a rest =>
    rw [hd] at h ht
    simp only [List.head?_cons, Option.some.injEq] at h
    rw [← ht, List.cons_append, List.head?_cons, h]

theorem dropTrailing_eq_self_of_getLast {p : Char → Bool} {l : List Char}
    (h : ∀ c ∈ l.getLast?, p c = false) : dropTrailing p l = l := by
  rw [dropTrailing, dropWhile_eq_self_of_head (by
    intro c hc
    rw [List.head?_reverse] at hc
    exact h c hc), List.reverse_reverse]

theorem chain'_dropTrailing {R : Char → Char → Prop} {p : Char → Bool}
    {l : List Char} (h : l.Chain' R) : (dropTrailing p l).Chain' R :=
  List.Chain'.prefix h (dropTrailing_prefix_self p l)

theorem mem_of_mem_pyStrip {p : Char → Bool} {l : List Char} {c : Char}
    (h : c ∈ pyStrip p l) : c ∈ l :=
  mem_of_mem_dropWhile (mem_of_mem_dropTrailing h)

theorem head?_pyStrip {p : Char → Bool} {l : List Char} {c : Char}
    (h : (pyStrip p l).head? = some c) : p c = false :=
  head?_dropWhile (head?_dropTrailing h)

theorem getLast?_pyStrip {p : Char → Bool} {l : List Char} {c : Char}
    (h : (pyStrip p l).getLast? = some c) : p c = false :=
  getLast?_dropTrailing h

theorem chain'_pyStrip {R : Char → Char → Prop} {p : Char → Bool}
    {l : List Char} (h : l.Chain' R) : (pyStrip p l).Chain' R :=
  chain'_dropTrailing (List.Chain'.suffix h (List.dropWhile_suffix p))

theorem pyStrip_eq_self {p : Char → Bool} {l : List Char}
    (hh : ∀ c ∈ l.head?, p c = false) (hl : ∀ c ∈ l.getLast?, p c = false) :
    pyStrip p l = l := by
  rw [pyStrip, dropWhile_eq_self_of_head hh, dropTrailing_eq_self_of_getLast hl]

theorem map_eq_self_of_fixed {f : Char → Char} {l : List Char}
    (h : ∀ c ∈ l, f c = c) : l.map f = l := by
  rw [List.map_congr_left h]
  exact List.map_id' l

/-! ## Structure of sanitized branch names -/

/-- Structural facts about `sanitizeChars`: the output contains no
whitespace, no slash and no uppercase letter, has no two adjacent hyphens,
and neither starts nor ends with a hyphen. -/
theorem sanitizeChars_spec (l : List Char) :
    (∀ c ∈ sanitizeChars l, pyIsSpace c = false ∧ c ≠ '/' ∧ c.isUpper = false) ∧
    (sanitizeChars l).Chain' (fun a b => ¬(a = '-' ∧ b = '-')) ∧
    (∀ c ∈ (sanitizeChars l).head?, c ≠ '-') ∧
    (∀ c ∈ (sanitizeChars l).getLast?, c ≠ '-') := by
  have hbody : sanitizeChars l =
      pyStrip (fun c => c = '-')
        ((collapseRuns (fun c => c = '-') '-' false
          ((collapseRuns pyIsSpace '-' false (pyStrip pyIsSpace l)).map
            (fun c => if c = '/' then '-' else c))).map Char.toLower) := rfl
  have h2 : ∀ c ∈ collapseRuns pyIsSpace '-' false (pyStrip pyIsSpace l),
      pyIsSpace c = false := by
    intro c hc
    rcases mem_collapseRuns hc with rfl | ⟨_, h⟩
    · decide
    · exact h
  have h3 : ∀ c ∈ (collapseRuns pyIsSpace '-' false (pyStrip pyIsSpace l)).map
      (fun c => if c = '/' then '-' else c), pyIsSpace c = false ∧ c ≠ '/' := by
    intro c hc
    rw [List.mem_map] at hc
    obtain ⟨x, hx, rfl⟩ := hc
    by_cases hxs : x = '/'
    · rw [if_pos hxs]
      exact ⟨by decide, by decide⟩
    · rw [if_neg hxs]
      exact ⟨h2 x hx, hxs⟩
  have h4 : ∀ c ∈ collapseRuns (fun c => c = '-') '-' false
      ((collapseRuns pyIsSpace '-' false (pyStrip pyIsSpace l)).map
        (fun c => if c = '/' then '-' else c)), pyIsSpace c = false ∧ c ≠ '/' := by
    intro c hc
    rcases mem_collapseRuns hc with rfl | ⟨hm, _⟩
    · exact ⟨by decide, by decide⟩
    · exact h3 c hm
  have hch4 : (collapseRuns (fun c => c = '-') '-' false
      ((collapseRuns pyIsSpace '-' false (pyStrip pyIsSpace l)).map
        (fun c => if c = '/' then '-' else c))).Chain'
      (fun a b => ¬(a = '-' ∧ b = '-')) := by
    refine (chain'_collapseRuns _ false).imp (fun a b hab ⟨ha, hb⟩ => ?_)
    exact hab ⟨by simp [ha], by simp [hb]⟩
  have h5 : ∀ c ∈ (collapseRuns (fun c => c = '-') '-' false
      ((collapseRuns pyIsSpace '-' false (pyStrip pyIsSpace l)).map
        (fun c => if c = '/' then '-' else c))).map Char.toLower,
      pyIsSpace c = false ∧ c ≠ '/' ∧ c.isUpper = false := by
    intro c hc
    rw [List.mem_map] at hc
    obtain ⟨x, hx, rfl⟩ := hc
    exact ⟨by rw [pyIsSpace_toLower]; exact (h4 x hx).1,
      toLower_ne_slash (h4 x hx).2, isUpper_toLower x⟩
  have hch5 : ((collapseRuns (fun c => c = '-') '-' false
      ((collapseRuns pyIsSpace '-' false (pyStrip pyIsSpace l)).map
        (fun c => if c = '/' then '-' else c))).map Char.toLower).Chain'
      (fun a b => ¬(a = '-' ∧ b = '-')) := by
    refine (List.chain'_map _).mpr (hch4.imp (fun a b hab ⟨ha, hb⟩ => ?_))
    exact hab ⟨toLower_eq_hyphen ha, toLower_eq_hyphen hb⟩
  rw [hbody]
  refine ⟨fun c hc => h5 c (mem_of_mem_pyStrip hc), chain'_pyStrip hch5,
    fun c hc => ?_, fun c hc => ?_⟩
  · have := head?_pyStrip (Option.mem_def.mp hc)
    simpa using this
  · have := getLast?_pyStrip (Option.mem_def.mp hc)
    simpa using this

theorem sanitizeChars_idem (l : List Char) :
    sanitizeChars (sanitizeChars l) = sanitizeChars l := by
  obtain ⟨hmem, hch, hhd, hlast⟩ := sanitizeChars_spec l
  have e1 : pyStrip pyIsSpace (sanitizeChars l) = sanitizeChars l :=
    pyStrip_eq_self
      (fun c hc => (hmem c (List.mem_of_mem_head? hc)).1)
      (fun c hc => (hmem c (List.mem_of_getLast?_eq_some (Option.mem_def.mp hc))).1)
  have e2 : collapseRuns pyIsSpace '-' false (sanitizeChars l) = sanitizeChars l :=
    collapseRuns_eq_self false (fun c hc => (hmem c hc).1)
  have e3 : (sanitizeChars l).map (fun c => if c = '/' then '-' else c)
      = sanitizeChars l :=
    map_eq_self_of_fixed (fun c hc => if_neg (hmem c hc).2.1)
  have e4 : collapseRuns (fun c => c = '-') '-' false (sanitizeChars l)
      = sanitizeChars l := by
    refine collapseRuns_fix false
      (hch.imp (fun a b hab ⟨ha, hb⟩ => hab ⟨by simpa using ha, by simpa using hb⟩))
      (fun c _ h => by simpa using h) (by simp)
  have e5 : (sanitizeChars l).map Char.toLower = sanitizeChars l := by
    refine map_eq_self_of_fixed (fun c hc => toLower_eq_self (fun hu => ?_))
    exact absurd (isUpper_iff.mpr hu) (by simp [(hmem c hc).2.2])
  have e6 : pyStrip (fun c => c = '-') (sanitizeChars l) = sanitizeChars l :=
    pyStrip_eq_self (fun c hc => by simpa using hhd c hc)
      (fun c hc => by simpa using hlast c hc)
  calc sanitizeChars (sanitizeChars l)
      = pyStrip (fun c => c = '-')
          ((collapseRuns (fun c => c = '-') '-' false
            ((collapseRuns pyIsSpace '-' false
              (pyStrip pyIsSpace (sanitizeChars l))).map
                (fun c => if c = '/' then '-' else c))).map Char.toLower) := rfl
    _ = sanitizeChars l := by rw [e1, e2, e3, e4, e5, e6]

theorem sanitizeChars_trivial {l : List Char}
    (h : ∀ c ∈ l, pyIsSpace c = true ∨ c = '-' ∨ c = '/') :
    sanitizeChars l = [] := by
  have hbody : sanitizeChars l =
      pyStrip (fun c => c = '-')
        ((collapseRuns (fun c => c = '-') '-' false
          ((collapseRuns pyIsSpace '-' false (pyStrip pyIsSpace l)).map
            (fun c => if c = '/' then '-' else c))).map Char.toLower) := rfl
  have h2 : ∀ c ∈ collapseRuns pyIsSpace '-' false (pyStrip pyIsSpace l),
      c = '-' ∨ c = '/' := by
    intro c hc
    rcases mem_collapseRuns hc with rfl | ⟨hm, hns⟩
    · exact Or.inl rfl
    · rcases h c (mem_of_mem_pyStrip hm) with hs | hs
      · rw [hs] at hns
        exact absurd hns (by simp)
      · exact hs
  have h3 : ∀ c ∈ (collapseRuns pyIsSpace '-' false (pyStrip pyIsSpace l)).map
      (fun c => if c = '/' then '-' else c), c = '-' := by
    intro c hc
    rw [List.mem_map] at hc
    obtain ⟨x, hx, rfl⟩ := hc
    by_cases hxs : x = '/'
    · rw [if_pos hxs]
    · rw [if_neg hxs]
      rcases h2 x hx with h' | h'
      · exact h'
      · exact absurd h' hxs
  by_cases hnil : (collapseRuns pyIsSpace '-' false (pyStrip pyIsSpace l)).map
      (fun c => if c = '/' then '-' else c) = []
  · rw [hbody, hnil]
    rfl
  · rw [hbody, collapseRuns_all_run_false hnil (fun c hc => by simp [h3 c hc])]
    rfl

/-- Claim C5: `sanitize_branch_name` is idempotent — sanitizing an already
sanitized branch name changes nothing. -/
theorem sanitize_branch_name_idempotent (s : String) :
    sanitize_branch_name (sanitize_branch_name s) = sanitize_branch_name s :=
  congrArg String.mk (sanitizeChars_idem s.data)

/-- Claim C6: for every input, the output of `sanitize_branch_name`
contains no two consecutive hyphens, does not begin or end with a hyphen,
contains no uppercase letter, and contains no slash. -/
theorem sanitize_branch_name_wellformed (s : String) :
    ¬ (['-', '-'] <:+: (sanitize_branch_name s).data) ∧
    (∀ c ∈ (sanitize_branch_name s).data.head?, c ≠ '-') ∧
    (∀ c ∈ (sanitize_branch_name s).data.getLast?, c ≠ '-') ∧
    (∀ c ∈ (sanitize_branch_name s).data, c.isUpper = false ∧ c ≠ '/') := by
  obtain ⟨hmem, hch, hhd, hlast⟩ := sanitizeChars_spec s.data
  refine ⟨fun hinf => ?_, hhd, hlast, fun c hc => ⟨(hmem c hc).2.2, (hmem c hc).2.1⟩⟩
  have := List.Chain'.infix hch hinf
  rw [List.chain'_cons] at this
  exact this.1 ⟨rfl, rfl⟩

/-- Witness for C6 at the spec's example input `Module 4/Lab Assignment`,
whose sanitized form is `module-4-lab-assignment`. -/
theorem sanitize_branch_name_wellformed_witness :
    sanitize_branch_name "Module 4/Lab Assignment" = "module-4-lab-assignment" ∧
    'm' ∈ (sanitize_branch_name "Module 4/Lab Assignment").data ∧
    ('m'.isUpper = false ∧ 'm' ≠ '/') :=
  ⟨by decide, by decide,
    (sanitize_branch_name_wellformed "Module 4/Lab Assignment").2.2.2 'm' (by decide)⟩

/-- Claim C10: an input consisting only of whitespace, hyphen and slash
characters sanitizes to the empty branch name, and the empty name is then
substituted into the `git checkout -b ` command of `create_branch`. -/
theorem sanitize_branch_name_trivial_empty (s : String)
    (h : ∀ c ∈ s.data, pyIsSpace c = true ∨ c = '-' ∨ c = '/') :
    sanitize_branch_name s = "" ∧
    ∀ d, create_branch_commands d (sanitize_branch_name s) =
      ["git checkout " ++ d, "git checkout -b "] := by
  have h1 : sanitize_branch_name s = "" := by
    rw [sanitize_branch_name, sanitizeChars_trivial h]
  refine ⟨h1, fun d => ?_⟩
  rw [h1, create_branch_commands]
  have he : ("git checkout -b " ++ "" : String) = "git checkout -b " := by decide
  rw [he]

/-- Witness for C10 at a concrete input made of whitespace, hyphen and
slash characters only. -/
theorem sanitize_branch_name_trivial_empty_witness :
    sanitize_branch_name " -// " = "" ∧
    create_branch_commands "main" (sanitize_branch_name " -// ") =
      ["git checkout main", "git checkout -b "] := by
  have h := sanitize_branch_name_trivial_empty " -// " (by decide)
  exact ⟨h.1, h.2 "main"⟩

/-! ## README augmentation -/

/-- Counterexample to claim C4 as stated: when the existing README ends in
trailing whitespace beyond at most two newlines, `create_readme` does not
preserve the original content byte for byte as a prefix, because the
augmentation first applies `rstrip` to the existing content.  Here the
original ends in three newlines and the result drops them. -/
theorem augmented_content_not_byte_preserving :
    augmented_content "# Assignment 1\n\n\n" =
      "# Assignment 1" ++ augmentation_comment ∧
    ¬ ("# Assignment 1\n\n\n".data <+: (augmented_content "# Assignment 1\n\n\n").data) :=
  ⟨by decide, by decide⟩

/-- Claim C4, amended: the augmented README content is the original content
with its trailing whitespace removed, preserved verbatim as a prefix, with
only the attribution footer appended after it; in particular the original
itself is preserved verbatim as a prefix whenever it does not end in a
whitespace character. -/
theorem augmented_content_spec (s : String) :
    augmented_content s = pyRstrip s ++ augmentation_comment ∧
    (pyRstrip s).data <+: (augmented_content s).data ∧
    ((∀ c ∈ s.data.getLast?, pyIsSpace c = false) →
      s.data <+: (augmented_content s).data) := by
  refine ⟨rfl, ?_, fun h => ?_⟩
  · rw [augmented_content, String.data_append]
    exact ⟨augmentation_comment.data, rfl⟩
  · have hr : pyRstrip s = s := by
      rw [pyRstrip, dropTrailing_eq_self_of_getLast h]
    rw [augmented_content, hr, String.data_append]
    exact ⟨augmentation_comment.data, rfl⟩

/-- Witness for C4 (amended) at a README body with no trailing whitespace. -/
theorem augmented_content_spec_witness :
    augmented_content "# Existing Assignment" =
      pyRstrip "# Existing Assignment" ++ augmentation_comment ∧
    "# Existing Assignment".data <+: (augmented_content "# Existing Assignment").data :=
  ⟨(augmented_content_spec "# Existing Assignment").1,
    (augmented_content_spec "# Existing Assignment").2.2 (by decide)⟩

/-! ## Orchestrator lemmas -/

/-- Test whether an event is the creation of branch `b`. -/
def isCreateBranchFor (b : String) : Event → Bool
  | .createBranch bn => bn == b
  | _ => false

/-- Test whether an event is a README creation/augmentation on branch `b`. -/
def isCreateReadmeFor (b : String) : Event → Bool
  | .createReadme _ bn => bn == b
  | _ => false

/-- Test whether an event is a pull-request creation with head branch `b`. -/
def isCreatePullRequestFor (b : String) : Event → Bool
  | .createPullRequest _ bn => bn == b
  | _ => false

theorem phase2Step_cases (br : List String) (prs : List (String × String)) (a : String) :
    (br.contains (sanitize_branch_name a) = false ∧
      hasKey prs (sanitize_branch_name a) = false ∧
      phase2Step br prs a =
        ([Event.createBranch (sanitize_branch_name a),
          Event.createReadme a (sanitize_branch_name a)],
          [(a, sanitize_branch_name a)])) ∨
    (br.contains (sanitize_branch_name a) = false ∧
      hasKey prs (sanitize_branch_name a) = true ∧
      phase2Step br prs a = ([], [])) ∨
    (br.contains (sanitize_branch_name a) = true ∧
      hasKey prs (sanitize_branch_name a) = false ∧
      phase2Step br prs a = ([], [(a, sanitize_branch_name a)])) ∨
    (br.contains (sanitize_branch_name a) = true ∧
      hasKey prs (sanitize_branch_name a) = true ∧
      phase2Step br prs a = ([], [])) := by
  cases h1 : br.contains (sanitize_branch_name a)
    <;> cases h2 : hasKey prs (sanitize_branch_name a)
    <;> [skip; skip; skip; skip]
    <;> first
    | exact Or.inl ⟨rfl, rfl, by
        have h1' : sanitize_branch_name a ∉ br := by simpa using h1
        simp [phase2Step, h1', h2]⟩
    | exact Or.inr (Or.inl ⟨rfl, rfl, by
        have h1' : sanitize_branch_name a ∉ br := by simpa using h1
        simp [phase2Step, h1', h2]⟩)
    | exact Or.inr (Or.inr (Or.inl ⟨rfl, rfl, by
        have h1' : sanitize_branch_name a ∈ br := by simpa using h1
        simp [phase2Step, h1', h2]⟩))
    | exact Or.inr (Or.inr (Or.inr ⟨rfl, rfl, by
        have h1' : sanitize_branch_name a ∈ br := by simpa using h1
        simp [phase2Step, h1', h2]⟩))

theorem phase2_events_inv {br : List String} {prs : List (String × String)} :
    ∀ {asgn : List String} {e : Event}, e ∈ (phase2 br prs asgn).1 →
      ∃ p, p ∈ asgn ∧
        (e = Event.createBranch (sanitize_branch_name p) ∨
          e = Event.createReadme p (sanitize_branch_name p)) ∧
        br.contains (sanitize_branch_name p) = false ∧
        hasKey prs (sanitize_branch_name p) = false
  | [], e, h => by simp [phase2] at h
  | a :: rest, e, h => by
    rw [phase2] at h
    rcases List.mem_append.mp h with h' | h'
    · rcases phase2Step_cases br prs a with ⟨h1, h2, h3⟩ | ⟨h1, h2, h3⟩ |
        ⟨h1, h2, h3⟩ | ⟨h1, h2, h3⟩ <;> rw [h3] at h'
      · rcases List.mem_cons.mp h' with rfl | h''
        · exact ⟨a, List.mem_cons_self _ _, Or.inl rfl, h1, h2⟩
        · rcases List.mem_cons.mp h'' with rfl | h'''
          · exact ⟨a, List.mem_cons_self _ _, Or.inr rfl, h1, h2⟩
          · simp at h'''
      · simp at h'
      · simp at h'
      · simp at h'
    · obtain ⟨p, hp, he, hb, hk⟩ := phase2_events_inv h'
      exact ⟨p, List.mem_cons_of_mem _ hp, he, hb, hk⟩

theorem phase2_entries_inv {br : List String} {prs : List (String × String)} :
    ∀ {asgn : List String} {en : String × String}, en ∈ (phase2 br prs asgn).2 →
      en.2 = sanitize_branch_name en.1 ∧ en.1 ∈ asgn ∧
        hasKey prs en.2 = false
  | [], en, h => by simp [phase2] at h
  | a :: rest, en, h => by
    rw [phase2] at h
    rcases List.mem_append.mp h with h' | h'
    · rcases phase2Step_cases br prs a with ⟨h1, h2, h3⟩ | ⟨h1, h2, h3⟩ |
        ⟨h1, h2, h3⟩ | ⟨h1, h2, h3⟩ <;> rw [h3] at h'
      · rcases List.mem_singleton.mp h' with rfl
        exact ⟨rfl, List.mem_cons_self _ _, h2⟩
      · simp at h'
      · rcases List.mem_singleton.mp h' with rfl
        exact ⟨rfl, List.mem_cons_self _ _, h2⟩
      · simp at h'
    · obtain ⟨he, hp, hk⟩ := phase2_entries_inv h'
      exact ⟨he, List.mem_cons_of_mem _ hp, hk⟩

theorem phase4_events_inv {prs : List (String × String)} :
    ∀ {btp : List (String × String)} {e : Event}, e ∈ phase4 prs btp →
      ∃ en, en ∈ btp ∧ e = Event.createPullRequest en.1 en.2 ∧
        hasKey prs en.2 = false
  | [], e, h => by simp [phase4] at h
  | en :: rest, e, h => by
    rw [phase4] at h
    rcases List.mem_append.mp h with h' | h'
    · rw [phase4Step] at h'
      by_cases hk : hasKey prs en.2
      · rw [if_pos hk] at h'
        simp at h'
      · rw [if_neg hk] at h'
        rcases List.mem_singleton.mp h' with rfl
        exact ⟨en, List.mem_cons_self _ _, rfl, Bool.of_not_eq_true hk⟩
    · obtain ⟨en', hen, he, hk⟩ := phase4_events_inv h'
      exact ⟨en', List.mem_cons_of_mem _ hen, he, hk⟩

theorem phase2_countBranch {br : List String} {prs : List (String × String)}
    {b : String} (hp : hasKey prs b = false) :
    ∀ asgn : List String, ((phase2 br prs asgn).1).countP (isCreateBranchFor b)
      = cond (br.contains b) 0
          (asgn.countP (fun p => sanitize_branch_name p == b))
  | [] => by cases br.contains b <;> simp [phase2]
  | a :: rest => by
    have ih := @phase2_countBranch br prs b hp rest
    rcases phase2Step_cases br prs a with ⟨h1, h2, h3⟩ | ⟨h1, h2, h3⟩ |
      ⟨h1, h2, h3⟩ | ⟨h1, h2, h3⟩
    · by_cases hab : sanitize_branch_name a = b
      · subst hab
        rw [phase2]
        simp only [h3, List.countP_append, List.countP_cons, h1, cond_false] at ih ⊢
        simp [isCreateBranchFor, ih]
        omega
      · rw [phase2]
        simp only [h3, List.countP_append, List.countP_cons] at ih ⊢
        have hf : isCreateBranchFor b (Event.createBranch (sanitize_branch_name a))
            = false := by simp [isCreateBranchFor, hab]
        simp [isCreateBranchFor, hf, hab, ih]
    · have hab : sanitize_branch_name a ≠ b := fun he => by
        rw [he] at h2; rw [h2] at hp; exact absurd hp (by simp)
      rw [phase2]
      simp only [h3, List.countP_append, List.countP_cons] at ih ⊢
      simp [hab, ih]
    · by_cases hab : sanitize_branch_name a = b
      · subst hab
        rw [phase2]
        simp only [h3, List.countP_append, List.countP_cons, h1, cond_true] at ih ⊢
        simp [ih]
      · rw [phase2]
        simp only [h3, List.countP_append, List.countP_cons] at ih ⊢
        simp [hab, ih]
    · have hab : sanitize_branch_name a ≠ b := fun he => by
        rw [he] at h2; rw [h2] at hp; exact absurd hp (by simp)
      rw [phase2]
      simp only [h3, List.countP_append, List.countP_cons] at ih ⊢
      simp [hab, ih]

theorem phase2_countReadme {br : List String} {prs : List (String × String)}
    {b : String} (hp : hasKey prs b = false) :
    ∀ asgn : List String, ((phase2 br prs asgn).1).countP (isCreateReadmeFor b)
      = cond (br.contains b) 0
          (asgn.countP (fun p => sanitize_branch_name p == b))
  | [] => by cases br.contains b <;> simp [phase2]
  | a :: rest => by
    have ih := @phase2_countReadme br prs b hp rest
    rcases phase2Step_cases br prs a with ⟨h1, h2, h3⟩ | ⟨h1, h2, h3⟩ |
      ⟨h1, h2, h3⟩ | ⟨h1, h2, h3⟩
    · by_cases hab : sanitize_branch_name a = b
      · subst hab
        rw [phase2]
        simp only [h3, List.countP_append, List.countP_cons, h1, cond_false] at ih ⊢
        simp [isCreateReadmeFor, ih]
        omega
      · rw [phase2]
        simp only [h3, List.countP_append, List.countP_cons] at ih ⊢
        simp [isCreateReadmeFor, hab, ih]
    · have hab : sanitize_branch_name a ≠ b := fun he => by
        rw [he] at h2; rw [h2] at hp; exact absurd hp (by simp)
      rw [phase2]
      simp only [h3, List.countP_append, List.countP_cons] at ih ⊢
      simp [hab, ih]
    · by_cases hab : sanitize_branch_name a = b
      · subst hab
        rw [phase2]
        simp only [h3, List.countP_append, List.countP_cons, h1, cond_true] at ih ⊢
        simp [ih]
      · rw [phase2]
        simp only [h3, List.countP_append, List.countP_cons] at ih ⊢
        simp [hab, ih]
    · have hab : sanitize_branch_name a ≠ b := fun he => by
        rw [he] at h2; rw [h2] at hp; exact absurd hp (by simp)
      rw [phase2]
      simp only [h3, List.countP_append, List.countP_cons] at ih ⊢
      simp [hab, ih]

theorem phase2_countEntries {br : List String} {prs : List (String × String)}
    {b : String} (hp : hasKey prs b = false) :
    ∀ asgn : List String,
      ((phase2 br prs asgn).2).countP (fun en => en.2 == b)
        = asgn.countP (fun p => sanitize_branch_name p == b)
  | [] => by simp [phase2]
  | a :: rest => by
    have ih := @phase2_countEntries br prs b hp rest
    rcases phase2Step_cases br prs a with ⟨h1, h2, h3⟩ | ⟨h1, h2, h3⟩ |
      ⟨h1, h2, h3⟩ | ⟨h1, h2, h3⟩
    · rw [phase2]
      simp only [h3, List.countP_append, List.countP_cons] at ih ⊢
      simp [ih]
      by_cases hab : sanitize_branch_name a = b
      · simp [hab]
        omega
      · simp [hab]
    · have hab : sanitize_branch_name a ≠ b := fun he => by
        rw [he] at h2; rw [h2] at hp; exact absurd hp (by simp)
      rw [phase2]
      simp only [h3, List.countP_append, List.countP_cons] at ih ⊢
      simp [hab, ih]
    · rw [phase2]
      simp only [h3, List.countP_append, List.countP_cons] at ih ⊢
      simp [ih]
      by_cases hab : sanitize_branch_name a = b
      · simp [hab]
        omega
      · simp [hab]
    · have hab : sanitize_branch_name a ≠ b := fun he => by
        rw [he] at h2; rw [h2] at hp; exact absurd hp (by simp)
      rw [phase2]
      simp only [h3, List.countP_append, List.countP_cons] at ih ⊢
      simp [hab, ih]

theorem phase4_countPR {prs : List (String × String)} {b : String}
    (hp : hasKey prs b = false) :
    ∀ btp : List (String × String),
      (phase4 prs btp).countP (isCreatePullRequestFor b)
        = btp.countP (fun en => en.2 == b)
  | [] => by simp [phase4]
  | en :: rest => by
    have ih := @phase4_countPR prs b hp rest
    rw [phase4, phase4Step]
    by_cases hk : hasKey prs en.2
    · have hab : en.2 ≠ b := fun he => by
        rw [he] at hk; rw [hk] at hp; exact absurd hp (by simp)
      rw [if_pos hk]
      simp [List.countP_cons, hab, ih]
    · rw [if_neg hk]
      simp only [List.countP_append, List.countP_cons]
      by_cases hab : en.2 = b
      · simp [isCreatePullRequestFor, hab, ih]
        omega
      · simp [isCreatePullRequestFor, hab, ih]

theorem phase4_countBranch_zero {prs : List (String × String)} {b : String}
    (btp : List (String × String)) :
    (phase4 prs btp).countP (isCreateBranchFor b) = 0 := by
  rw [List.countP_eq_zero]
  intro e he
  obtain ⟨en, _, rfl, _⟩ := phase4_events_inv he
  simp [isCreateBranchFor]

theorem phase4_countReadme_zero {prs : List (String × String)} {b : String}
    (btp : List (String × String)) :
    (phase4 prs btp).countP (isCreateReadmeFor b) = 0 := by
  rw [List.countP_eq_zero]
  intro e he
  obtain ⟨en, _, rfl, _⟩ := phase4_events_inv he
  simp [isCreateReadmeFor]

theorem phase2_countPR_zero {br : List String} {prs : List (String × String)}
    {b : String} (asgn : List String) :
    ((phase2 br prs asgn).1).countP (isCreatePullRequestFor b) = 0 := by
  rw [List.countP_eq_zero]
  intro e he
  obtain ⟨p, _, hshape, _, _⟩ := phase2_events_inv he
  rcases hshape with rfl | rfl <;> simp [isCreatePullRequestFor]

/-! ## Claims about the orchestrator -/

/-- Claim C1: for every discovered assignment whose sanitized branch name
appears in the pull-request history map — in any lifecycle state — a
completed `process_assignments` run performs no branch creation and no
pull-request creation for that branch name, regardless of whether a branch
of that name exists. -/
theorem process_assignments_skips_pr_history
    (assignments existing_branches : List String)
    (existing_prs : List (String × String)) (a : String)
    (_ha : a ∈ assignments)
    (hpr : hasKey existing_prs (sanitize_branch_name a) = true) :
    ∀ e ∈ process_assignments assignments existing_branches existing_prs,
      isCreateBranchFor (sanitize_branch_name a) e = false ∧
      isCreatePullRequestFor (sanitize_branch_name a) e = false := by
  intro e he
  rw [process_assignments] at he
  rcases List.mem_append.mp he with h' | h'
  · obtain ⟨p, _, hshape, _, hk⟩ := phase2_events_inv h'
    rcases hshape with rfl | rfl
    · refine ⟨?_, by simp [isCreatePullRequestFor]⟩
      cases hf : isCreateBranchFor (sanitize_branch_name a)
          (Event.createBranch (sanitize_branch_name p))
      · rfl
      · have : sanitize_branch_name p = sanitize_branch_name a := by
          simpa [isCreateBranchFor] using hf
        rw [this] at hk
        rw [hk] at hpr
        exact absurd hpr (by simp)
    · exact ⟨by simp [isCreateBranchFor], by simp [isCreatePullRequestFor]⟩
  · obtain ⟨en, _, rfl, hk⟩ := phase4_events_inv h'
    refine ⟨by simp [isCreateBranchFor], ?_⟩
    cases hf : isCreatePullRequestFor (sanitize_branch_name a)
        (Event.createPullRequest en.1 en.2)
    · rfl
    · have : en.2 = sanitize_branch_name a := by
        simpa [isCreatePullRequestFor] using hf
      rw [this] at hk
      rw [hk] at hpr
      exact absurd hpr (by simp)

/-- Witness for C1: with a closed PR recorded for `assignment-1` and a
second fresh assignment, the run creates only `assignment-2` artifacts;
the theorem applies to the branch-creation event of `assignment-2`,
showing it is not a creation for `assignment-1`. -/
theorem process_assignments_skips_pr_history_witness :
    hasKey [("assignments-assignment-1", "closed")]
      (sanitize_branch_name "assignments/assignment-1") = true ∧
    Event.createBranch "assignments-assignment-2" ∈
      process_assignments ["assignments/assignment-1", "assignments/assignment-2"]
        [] [("assignments-assignment-1", "closed")] ∧
    isCreateBranchFor (sanitize_branch_name "assignments/assignment-1")
      (Event.createBranch "assignments-assignment-2") = false :=
  ⟨by decide, by decide,
    (process_assignments_skips_pr_history
      ["assignments/assignment-1", "assignments/assignment-2"]
      [] [("assignments-assignment-1", "closed")]
      "assignments/assignment-1" (by decide) (by decide)
      (Event.createBranch "assignments-assignment-2") (by decide)).1⟩

/-- Claim C2: for a discovered assignment whose sanitized branch name is
neither in the existing-branch set nor in the pull-request history map,
`process_assignments` calls `create_branch` exactly once and
`create_pull_request` at most once per occurrence of that assignment in
the discovery list: the number of branch creations for its branch name
equals the number of discovered assignments sanitizing to that name (so a
uniquely named assignment gets exactly one), and pull-request creations
number the same, hence at most one per occurrence. -/
theorem process_assignments_fresh_creates_once
    (assignments existing_branches : List String)
    (existing_prs : List (String × String)) (a : String)
    (ha : a ∈ assignments)
    (hb : existing_branches.contains (sanitize_branch_name a) = false)
    (hp : hasKey existing_prs (sanitize_branch_name a) = false) :
    (process_assignments assignments existing_branches existing_prs).countP
        (isCreateBranchFor (sanitize_branch_name a))
      = assignments.countP
          (fun p => sanitize_branch_name p == sanitize_branch_name a) ∧
    (process_assignments assignments existing_branches existing_prs).countP
        (isCreatePullRequestFor (sanitize_branch_name a))
      = assignments.countP
          (fun p => sanitize_branch_name p == sanitize_branch_name a) ∧
    1 ≤ assignments.countP
          (fun p => sanitize_branch_name p == sanitize_branch_name a) := by
  rw [process_assignments]
  simp only [List.countP_append]
  refine ⟨?_, ?_, ?_⟩
  · rw [phase2_countBranch hp assignments, phase4_countBranch_zero, hb]
    simp
  · rw [phase2_countPR_zero, phase4_countPR hp, phase2_countEntries hp assignments]
    omega
  · exact List.countP_pos_iff.mpr ⟨a, ha, by simp⟩

/-- Witness for C2: one fresh assignment, empty branch set and PR history:
exactly one branch creation and one (hence at most one) PR creation. -/
theorem process_assignments_fresh_creates_once_witness :
    (process_assignments ["assignments/assignment-1"] [] []).countP
        (isCreateBranchFor (sanitize_branch_name "assignments/assignment-1")) = 1 ∧
    (process_assignments ["assignments/assignment-1"] [] []).countP
        (isCreatePullRequestFor (sanitize_branch_name "assignments/assignment-1"))
      = 1 := by
  have h := process_assignments_fresh_creates_once
    ["assignments/assignment-1"] [] [] "assignments/assignment-1"
    (by decide) (by decide) (by decide)
  refine ⟨?_, ?_⟩
  · rw [h.1]
    decide
  · rw [h.2.1]
    decide

/-- Counterexample to claim C3 as stated: when the branch exists and no PR
history exists, `process_assignments` never calls `create_readme` — the
trace contains only the pull-request creation, even though the decision
table in the spec promises README creation/augmentation in this row. -/
theorem process_assignments_existing_branch_no_readme_cex :
    process_assignments ["assignments/assignment-1"]
        ["assignments-assignment-1"] []
      = [Event.createPullRequest "assignments/assignment-1"
          "assignments-assignment-1"] ∧
    (process_assignments ["assignments/assignment-1"]
        ["assignments-assignment-1"] []).countP
      (isCreateReadmeFor "assignments-assignment-1") = 0 :=
  ⟨by decide, by decide⟩

/-- Claim C3, amended: for a discovered assignment whose sanitized branch
name is in the existing-branch set but not in the pull-request history
map, the orchestrator creates no branch, performs no README creation or
augmentation, and creates exactly one pull request per occurrence of the
assignment (no post-change check is performed before PR creation). -/
theorem process_assignments_existing_branch_only_pr
    (assignments existing_branches : List String)
    (existing_prs : List (String × String)) (a : String)
    (ha : a ∈ assignments)
    (hb : existing_branches.contains (sanitize_branch_name a) = true)
    (hp : hasKey existing_prs (sanitize_branch_name a) = false) :
    (process_assignments assignments existing_branches existing_prs).countP
        (isCreateBranchFor (sanitize_branch_name a)) = 0 ∧
    (process_assignments assignments existing_branches existing_prs).countP
        (isCreateReadmeFor (sanitize_branch_name a)) = 0 ∧
    (process_assignments assignments existing_branches existing_prs).countP
        (isCreatePullRequestFor (sanitize_branch_name a))
      = assignments.countP
          (fun p => sanitize_branch_name p == sanitize_branch_name a) ∧
    1 ≤ assignments.countP
          (fun p => sanitize_branch_name p == sanitize_branch_name a) := by
  rw [process_assignments]
  simp only [List.countP_append]
  refine ⟨?_, ?_, ?_, ?_⟩
  · rw [phase2_countBranch hp assignments, phase4_countBranch_zero, hb]
    rfl
  · rw [phase2_countReadme hp assignments, phase4_countReadme_zero, hb]
    rfl
  · rw [phase2_countPR_zero, phase4_countPR hp, phase2_countEntries hp assignments]
    omega
  · exact List.countP_pos_iff.mpr ⟨a, ha, by simp⟩

/-- Witness for C3 (amended): branch `assignments-assignment-1` exists
with no PR history: zero branch creations, zero README calls, exactly one
pull request. -/
theorem process_assignments_existing_branch_only_pr_witness :
    (process_assignments ["assignments/assignment-1"]
        ["assignments-assignment-1"] []).countP
      (isCreateBranchFor (sanitize_branch_name "assignments/assignment-1")) = 0 ∧
    (process_assignments ["assignments/assignment-1"]
        ["assignments-assignment-1"] []).countP
      (isCreatePullRequestFor (sanitize_branch_name "assignments/assignment-1"))
      = 1 := by
  have h := process_assignments_existing_branch_only_pr
    ["assignments/assignment-1"] ["assignments-assignment-1"] []
    "assignments/assignment-1" (by decide) (by decide) (by decide)
  refine ⟨h.1, ?_⟩
  rw [h.2.2.1]
  decide

/-- Claim C9: in dry-run mode `get_existing_branches` returns the empty
set and `get_existing_pull_requests` returns the empty map, independently
of the git output and of the pull-request list, so every discovered
assignment is processed exactly as if no branch and no PR history existed
for it. -/
theorem dry_run_empty_state (git_branch_output : String)
    (pulls : List (String × String)) (assignments : List String) :
    get_existing_branches true git_branch_output = [] ∧
    get_existing_pull_requests true pulls = [] ∧
    process_assignments assignments
        (get_existing_branches true git_branch_output)
        (get_existing_pull_requests true pulls)
      = process_assignments assignments [] [] :=
  ⟨rfl, rfl, rfl⟩

/-! ## Scanner lemmas -/

theorem mem_subdirsList_iff {cs : List DirTree} {r : List String} {d : DirTree} :
    (r, d) ∈ subdirsList cs ↔
      ∃ c ∈ cs, ∃ r', r = c.name :: r' ∧ (r', d) ∈ subdirs c := by
  induction cs with
  | nil =>
    rw [subdirsList]
    simp
  | cons c rest ih =>
    rw [subdirsList]
    rw [List.mem_append, ih]
    constructor
    · rintro (hm | ⟨c', hc', r', rfl, hr'⟩)
      · rw [List.mem_map] at hm
        obtain ⟨pd, hpd, hpe⟩ := hm
        rw [Prod.mk.injEq] at hpe
        refine ⟨c, List.mem_cons_self _ _, pd.1, hpe.1.symm, ?_⟩
        have h1 : pd = (pd.1, d) := Prod.ext rfl hpe.2
        rwa [h1] at hpd
      · exact ⟨c', List.mem_cons_of_mem _ hc', r', rfl, hr'⟩
    · rintro ⟨c', hc', r', rfl, hr'⟩
      rcases List.mem_cons.mp hc' with rfl | hc''
      · exact Or.inl (List.mem_map.mpr ⟨(r', d), hr', rfl⟩)
      · exact Or.inr ⟨c', hc'', r', rfl, hr'⟩

theorem self_mem_subdirs (t : DirTree) : (([] : List String), t) ∈ subdirs t := by
  cases t with
  | node n cs =>
    rw [subdirs]
    exact List.mem_cons_self _ _

/-- The recursion principle of `DirTree` with membership over the child
list. -/
theorem DirTree.mem_ind {P : DirTree → Prop}
    (h : ∀ n cs, (∀ c ∈ cs, P c) → P (.node n cs)) : ∀ t, P t
  | .node n cs => h n cs (fun c _ => DirTree.mem_ind h c)

theorem subdirs_trans (w : DirTree) :
    ∀ {r q : List String} {d a : DirTree}, (r, d) ∈ subdirs w →
      (q, a) ∈ subdirs d → (r ++ q, a) ∈ subdirs w := by
  induction w using DirTree.mem_ind with
  | h n cs ih =>
    intro r q d a hm hq
    rw [subdirs] at hm
    rcases List.mem_cons.mp hm with he | hm'
    · rw [Prod.mk.injEq] at he
      rw [he.1, List.nil_append]
      rw [he.2] at hq
      rwa [subdirs]
    · obtain ⟨c, hc, r', rfl, hr'⟩ := mem_subdirsList_iff.mp hm'
      have := ih c hc hr' hq
      rw [subdirs]
      refine List.mem_cons_of_mem _ (mem_subdirsList_iff.mpr ⟨c, hc, r' ++ q, ?_, this⟩)
      rw [List.cons_append]

theorem child_mem_subdirs {t c : DirTree} (hc : c ∈ t.children) :
    ([c.name], c) ∈ subdirs t := by
  cases t with
  | node n cs =>
    rw [subdirs]
    refine List.mem_cons_of_mem _ (mem_subdirsList_iff.mpr ⟨c, hc, [], rfl, ?_⟩)
    exact self_mem_subdirs c

/-- Claim C7: every path emitted by `find_assignments` is an existing
directory of the workspace that lies strictly beneath some directory whose
basename matches the root pattern — the scan root's workspace-relative
path is a strict prefix of the emitted path, so in particular no emitted
assignment is the scan root itself.  Holds for every directory tree and
every pair of match predicates. -/
theorem find_assignments_strictly_beneath
    (root_pattern assignment_pattern : String → Bool) (workspace : DirTree)
    (p : List String)
    (hp : p ∈ find_assignments root_pattern assignment_pattern workspace) :
    ∃ (r : List String) (droot dasgn : DirTree),
      (r, droot) ∈ subdirs workspace ∧ root_pattern droot.name = true ∧
      (p, dasgn) ∈ subdirs workspace ∧ assignment_pattern dasgn.name = true ∧
      r <+: p ∧ r ≠ p := by
  rw [find_assignments, List.mem_flatMap] at hp
  obtain ⟨pd, hpd, hp2⟩ := hp
  rw [List.mem_flatMap] at hp2
  obtain ⟨c, hc, hp3⟩ := hp2
  by_cases hroot : root_pattern c.name = true
  · rw [if_pos hroot] at hp3
    rw [scanRoot, List.mem_filterMap] at hp3
    obtain ⟨qd, hqd, hsome⟩ := hp3
    by_cases hcond : (assignment_pattern qd.2.name && !(qd.1 == ([] : List String)))
        = true
    · rw [if_pos hcond] at hsome
      rw [Option.some.injEq] at hsome
      subst hsome
      rw [Bool.and_eq_true] at hcond
      have hap : assignment_pattern qd.2.name = true := hcond.1
      have hne : qd.1 ≠ [] := by
        intro he
        rw [he] at hcond
        simp at hcond
      have hroot_mem : (pd.1 ++ [c.name], c) ∈ subdirs workspace :=
        subdirs_trans workspace hpd (child_mem_subdirs hc)
      have hasgn_mem : ((pd.1 ++ [c.name]) ++ qd.1, qd.2) ∈ subdirs workspace :=
        subdirs_trans workspace hroot_mem (by
          have h2 : (qd.1, qd.2) = qd := rfl
          rw [h2]
          exact hqd)
      refine ⟨pd.1 ++ [c.name], c, qd.2, hroot_mem, hroot, hasgn_mem, hap,
        ⟨qd.1, rfl⟩, ?_⟩
      intro he
      have hlen := congrArg List.length he
      simp only [List.length_append] at hlen
      have h0 : qd.1.length = 0 := by omega
      exact hne (List.length_eq_zero.mp h0)
    · rw [if_neg hcond] at hsome
      simp at hsome
  · rw [if_neg hroot] at hp3
    simp at hp3

/-- Witness for C7 on the concrete workspace
`workspace/assignments/assignment-1` with the default patterns modelled as
basename equality tests. -/
theorem find_assignments_strictly_beneath_witness :
    (["assignments", "assignment-1"] : List String) ∈
      find_assignments (fun s => s == "assignments")
        (fun s => s == "assignment-1")
        (DirTree.node "workspace"
          [DirTree.node "assignments" [DirTree.node "assignment-1" []]]) ∧
    (∃ (r : List String) (droot dasgn : DirTree),
      (r, droot) ∈ subdirs (DirTree.node "workspace"
          [DirTree.node "assignments" [DirTree.node "assignment-1" []]]) ∧
      (fun s => s == "assignments") droot.name = true ∧
      ((["assignments", "assignment-1"] : List String), dasgn) ∈
        subdirs (DirTree.node "workspace"
          [DirTree.node "assignments" [DirTree.node "assignment-1" []]]) ∧
      (fun s => s == "assignment-1") dasgn.name = true ∧
      r <+: ["assignments", "assignment-1"] ∧
      r ≠ ["assignments", "assignment-1"]) :=
  ⟨by decide,
    find_assignments_strictly_beneath (fun s => s == "assignments")
      (fun s => s == "assignment-1")
      (DirTree.node "workspace"
        [DirTree.node "assignments" [DirTree.node "assignment-1" []]])
      ["assignments", "assignment-1"] (by decide)⟩

/-! ## Configuration errors -/

/-- Claim C8: if `GITHUB_TOKEN` or `GITHUB_REPOSITORY` is missing from the
environment, the constructor raises a configuration error (`ValueError`)
before any scanning or mutation work, and the process exits with code 1
with an empty work trace — a single attempt, no retries. -/
theorem missing_config_fails_fast (env : List (String × String))
    (reMatch : String → String → Bool) (workspace : DirTree)
    (git_branch_output : String) (pulls : List (String × String))
    (h : env.lookup "GITHUB_TOKEN" = none ∨ env.lookup "GITHUB_REPOSITORY" = none) :
    (∃ err, creator_init env = Except.error err) ∧
    (main env reMatch workspace git_branch_output pulls).1 = 1 ∧
    (main env reMatch workspace git_branch_output pulls).2 = [] := by
  have hinit : ∃ err, creator_init env = Except.error err := by
    rcases h with h' | h'
    · exact ⟨InitError.missingToken, by rw [creator_init]; simp [h']⟩
    · by_cases ht : ((env.lookup "GITHUB_TOKEN").getD "") = ""
      · exact ⟨InitError.missingToken, by rw [creator_init]; simp [ht]⟩
      · exact ⟨InitError.missingRepository, by rw [creator_init]; simp [ht, h']⟩
  obtain ⟨err, herr⟩ := hinit
  refine ⟨⟨err, herr⟩, ?_, ?_⟩ <;> rw [main, herr]

/-- Witness for C8: an environment with only `GITHUB_REPOSITORY` set. -/
theorem missing_config_fails_fast_witness :
    creator_init [("GITHUB_REPOSITORY", "octo/repo")] =
      Except.error InitError.missingToken ∧
    (main [("GITHUB_REPOSITORY", "octo/repo")] (fun _ _ => false)
      (DirTree.node "workspace" []) "" []).1 = 1 ∧
    (main [("GITHUB_REPOSITORY", "octo/repo")] (fun _ _ => false)
      (DirTree.node "workspace" []) "" []).2 = [] := by
  have h := missing_config_fails_fast [("GITHUB_REPOSITORY", "octo/repo")]
    (fun _ _ => false) (DirTree.node "workspace" []) "" [] (Or.inl rfl)
  exact ⟨rfl, h.2.1, h.2.2⟩

end AssignmentPR
